import Mathlib

/-!
Verification development for the knowmatic text-to-token pipeline and
generation loop.

The TypeScript sources are shallowly embedded:
* JS `number` logits become `ℚ` (the control-flow and ordering properties at
  issue do not depend on float rounding); `Math.exp` is passed in as an
  abstract positive function `rexp` where it occurs.
* token ids are `ℕ` (the vocabulary is dense `0..N-1`),
* JS strings are lists of Unicode scalar values (`List ℕ`),
* the neural scorer is the external capability `List ℕ → List ℚ` described in
  the spec (token-id sequence to final-position logit vector),
* `Math.random()` draws and the `AbortSignal` are explicit parameters
  (`rand : ℕ → ℚ` giving the per-step draw, `signal : ℕ → Bool` giving the
  abort flag observed at the top of each step).
-/

namespace Knowmatic

/-! ## Sampling primitives (src/unnamed/part_000, sampling.ts) -/

/-- Per-element transform of `applyRepetitionPenalty`: a logit of a token seen
`count` times is divided by `penalty ^ count` when strictly positive, else
multiplied by `penalty ^ count`. -/
def penalizeVal (x penalty : ℚ) (count : ℕ) : ℚ :=
  if 0 < x then x / penalty ^ count else x * penalty ^ count

/-- `applyRepetitionPenalty(logits, tokenCounts, penalty)`: returns `logits`
unchanged when `penalty <= 1`; otherwise each index `id` with occurrence count
`count` gets `penalizeVal`.  The source iterates the count map over a copy of
the array; ids absent from the map have count `0`, and `penalizeVal x p 0 = x`,
so applying the transform uniformly over all indices is the same function. -/
def applyRepetitionPenalty (logits : List ℚ) (tokenCounts : ℕ → ℕ) (penalty : ℚ) : List ℚ :=
  if penalty ≤ 1 then logits
  else logits.enum.map (fun p => penalizeVal p.2 penalty (tokenCounts p.1))

/-- `temperatureScale(logits, temperature)`: identity for `temperature <= 0`,
otherwise divides every logit by the temperature. -/
def temperatureScale (logits : List ℚ) (temperature : ℚ) : List ℚ :=
  if temperature ≤ 0 then logits else logits.map (fun x => x / temperature)

/-- Order in which `topKFilter` arranges the enumerated entries.  The source
sorts `(val, idx)` records with the comparator `(a, b) => b.val - a.val`;
ECMAScript `Array.prototype.sort` is stable and the records enter in index
order, so the resulting arrangement is exactly: value descending, original
index ascending among equal values. -/
def entryLE (a b : ℕ × ℚ) : Prop := b.2 < a.2 ∨ (a.2 = b.2 ∧ a.1 ≤ b.1)

instance : DecidableRel entryLE := fun a b => by
  unfold entryLE; infer_instance

instance : IsTotal (ℕ × ℚ) entryLE where
  total a b := by
    unfold entryLE
    rcases lt_trichotomy a.2 b.2 with h | h | h
    · exact Or.inr (Or.inl h)
    · rcases Nat.le_total a.1 b.1 with h1 | h1
      · exact Or.inl (Or.inr ⟨h, h1⟩)
      · exact Or.inr (Or.inr ⟨h.symm, h1⟩)
    · exact Or.inl (Or.inl h)

instance : IsTrans (ℕ × ℚ) entryLE where
  trans a b c hab hbc := by
    unfold entryLE at *
    rcases hab with h1 | ⟨h1, h1'⟩ <;> rcases hbc with h2 | ⟨h2, h2'⟩
    · exact Or.inl (h2.trans h1)
    · exact Or.inl (h2 ▸ h1)
    · exact Or.inl (h1 ▸ h2)
    · exact Or.inr ⟨h1.trans h2, h1'.trans h2'⟩

/-- `topKFilter(logits, k)`: enumerate the logits, sort by value descending
(stable, hence `entryLE`), keep the first `k`, and return the parallel index
and value lists. -/
def topKFilter (logits : List ℚ) (k : ℕ) : List ℕ × List ℚ :=
  let sorted := List.insertionSort entryLE logits.enum
  let topK := sorted.take k
  (topK.map Prod.fst, topK.map Prod.snd)

/-- `Math.max(...logits)` over a nonempty list (the model is only used on
nonempty input; the source yields `-Infinity` on an empty spread). -/
def listMax : List ℚ → ℚ
  | [] => 0
  | x :: xs => xs.foldl max x

/-- `softmaxMax(logits)`: maximum post-softmax probability, computed as in the
source by subtracting the maximum logit, exponentiating with `rexp`, and
dividing the running maximum (seeded with `0`) by the running sum. -/
def softmaxMax (rexp : ℚ → ℚ) (logits : List ℚ) : ℚ :=
  let m := listMax logits
  let es := logits.map (fun x => rexp (x - m))
  (es.foldl max 0) / (es.foldl (fun a b => a + b) 0)

/-- The cumulative scan of `sampleFromLogits`: return the first index whose
running total reaches the draw `r`; when the scan falls off the end the index
counter `i` equals the length, so `i - 1` is the source's fallback
`expScores.length - 1`. -/
def sampleScan (r : ℚ) : ℚ → ℕ → List ℚ → ℕ
  | _, i, [] => i - 1
  | cum, i, e :: rest => if r ≤ cum + e then i else sampleScan r (cum + e) (i + 1) rest

/-- `sampleFromLogits(logits)` with the uniform draw made explicit: `r` stands
for the source's `Math.random() * sumExp`. -/
def sampleFromLogits (rexp : ℚ → ℚ) (logits : List ℚ) (r : ℚ) : ℕ :=
  let m := listMax logits
  let es := logits.map (fun x => rexp (x - m))
  sampleScan r 0 0 es

/-! ## Generation engine (AutocompleteEngine.generate, autocomplete.ts) -/

/-- The generation options consumed by `AutocompleteEngine.generate` after
defaulting. -/
structure GenOptions where
  maxNewTokens : ℕ
  temperature : ℚ
  topK : ℕ
  minConfidence : ℚ
  repetitionPenalty : ℚ

/-- One run of the `for (let step = 0; step < maxNewTokens; step++)` loop of
`AutocompleteEngine.generate`, from an arbitrary reached state: `ids` is the
working sequence, `step` the loop counter, `fuel` the remaining iterations
(`maxNewTokens - step`).  Each iteration checks the abort signal, scores the
sequence, applies repetition penalty, temperature scaling and top-K filtering
in order, optionally stops below `minConfidence`, samples a candidate, and
stops without yielding when it is the end-of-sequence id.  The returned list
is the sequence of yielded tokens. -/
def genSteps (rexp : ℚ → ℚ) (scorer : List ℕ → List ℚ) (opts : GenOptions) (eos : ℕ)
    (signal : ℕ → Bool) (rand : ℕ → ℚ) : List ℕ → ℕ → ℕ → List ℕ
  | _, _, 0 => []
  | ids, step, fuel + 1 =>
    if signal step then []
    else
      let lastLogits := scorer ids
      let penalized := applyRepetitionPenalty lastLogits (fun i => ids.count i)
        opts.repetitionPenalty
      let scaled := temperatureScale penalized opts.temperature
      let filtered := topKFilter scaled opts.topK
      if 0 < opts.minConfidence ∧ softmaxMax rexp filtered.2 < opts.minConfidence then []
      else
        let sampledIdx := sampleFromLogits rexp filtered.2 (rand step)
        let nextToken := filtered.1.getD sampledIdx 0
        if nextToken = eos then []
        else nextToken :: genSteps rexp scorer opts eos signal rand
          (ids ++ [nextToken]) (step + 1) fuel

/-- `AutocompleteEngine.generate`: run the step loop from the initial sequence
with the full `maxNewTokens` budget. -/
def generate (rexp : ℚ → ℚ) (scorer : List ℕ → List ℚ) (opts : GenOptions) (eos : ℕ)
    (signal : ℕ → Bool) (rand : ℕ → ℚ) (inputIds : List ℕ) : List ℕ :=
  genSteps rexp scorer opts eos signal rand inputIds 0 opts.maxNewTokens

/-! ## Helper lemmas -/

theorem pairwise_and_of_pairwise {α : Type} {p q : α → α → Prop} :
    ∀ {l : List α}, l.Pairwise p → l.Pairwise q → l.Pairwise (fun a b => p a b ∧ q a b)
  | _, .nil, .nil => .nil
  | _, .cons hp hps, .cons hq hqs =>
    .cons (fun b hb => ⟨hp b hb, hq b hb⟩) (pairwise_and_of_pairwise hps hqs)

theorem pow_lt_pow_succ_of_one_lt {p : ℚ} (hp : 1 < p) (n : ℕ) : p ^ n < p ^ (n + 1) := by
  have h0 : (0 : ℚ) < p ^ n := pow_pos (lt_trans one_pos hp) n
  calc p ^ n = p ^ n * 1 := (mul_one _).symm
    _ < p ^ n * p := by exact (mul_lt_mul_left h0).mpr hp
    _ = p ^ (n + 1) := by ring

/-- Downward push: one more occurrence strictly lowers the adjusted score of a
nonzero logit. -/
theorem penalizeVal_succ_lt {x p : ℚ} (hp : 1 < p) (hx : x ≠ 0) (n : ℕ) :
    penalizeVal x p (n + 1) < penalizeVal x p n := by
  have hpow : p ^ n < p ^ (n + 1) := pow_lt_pow_succ_of_one_lt hp n
  have h0 : (0 : ℚ) < p ^ n := pow_pos (lt_trans one_pos hp) n
  unfold penalizeVal
  by_cases hxpos : 0 < x
  · simp only [if_pos hxpos]
    exact div_lt_div_of_pos_left hxpos h0 hpow
  · simp only [if_neg hxpos]
    have hneg : x < 0 := lt_of_le_of_ne (not_lt.mp hxpos) hx
    exact mul_lt_mul_of_neg_left hpow hneg

theorem applyRepetitionPenalty_getD {logits : List ℚ} {c : ℕ → ℕ} {p : ℚ}
    (hp : 1 < p) {i : ℕ} (hi : i < logits.length) :
    (applyRepetitionPenalty logits c p).getD i 0 = penalizeVal (logits.getD i 0) p (c i) := by
  unfold applyRepetitionPenalty
  rw [if_neg (not_le.mpr hp)]
  rw [List.getD_eq_getD_get?, List.getD_eq_getD_get?, List.get?_map, List.get?_enum,
    List.get?_eq_get hi]
  simp

/-! ## Claim C4 -/

/-- C4 counterexample: for the negative logit `-1` with penalty `2`, one
occurrence gives adjusted score `-2` against `-1` for zero occurrences, so the
magnitude strictly increases — the claimed strict decrease in magnitude is
false for negative scores. -/
theorem repetitionPenalty_magnitude_counterexample :
    ¬ |(applyRepetitionPenalty [-1] (fun _ => 1) 2).getD 0 0|
      < |(applyRepetitionPenalty [-1] (fun _ => 0) 2).getD 0 0| := by
  have h1 : (applyRepetitionPenalty [-1] (fun _ => 1) 2).getD 0 0 = -2 := by
    rw [applyRepetitionPenalty_getD (by norm_num) (by simp)]
    simp [penalizeVal]
  have h0 : (applyRepetitionPenalty [-1] (fun _ => 0) 2).getD 0 0 = -1 := by
    rw [applyRepetitionPenalty_getD (by norm_num) (by simp)]
    simp [penalizeVal]
  rw [h1, h0]
  norm_num

/-- C4 (amended): `applyRepetitionPenalty` is the identity for `penalty ≤ 1`;
for `penalty > 1` the adjusted score of a nonzero logit strictly decreases in
signed value (not magnitude) with each additional occurrence: positive logits
are divided by `penalty ^ count`, non-positive ones multiplied by it, so
repeated tokens are always pushed downward. -/
theorem applyRepetitionPenalty_pushes_down
    (logits : List ℚ) (c c' : ℕ → ℕ) (p : ℚ) (i : ℕ)
    (hp : 1 < p) (hi : i < logits.length) (hx : logits.getD i 0 ≠ 0)
    (hc : c i = c' i + 1) :
    (applyRepetitionPenalty logits c p).getD i 0
      < (applyRepetitionPenalty logits c' p).getD i 0 ∧
    (∀ (l : List ℚ) (cnt : ℕ → ℕ) (q : ℚ), q ≤ 1 → applyRepetitionPenalty l cnt q = l) := by
  constructor
  · rw [applyRepetitionPenalty_getD hp hi, applyRepetitionPenalty_getD hp hi, hc]
    exact penalizeVal_succ_lt hp hx (c' i)
  · intro l cnt q hq
    unfold applyRepetitionPenalty
    rw [if_pos hq]

/-- Witness for C4's amended theorem at logit `-1`, penalty `2`, counts `1`
and `0`. -/
theorem applyRepetitionPenalty_pushes_down_witness :
    (applyRepetitionPenalty [-1] (fun _ => 1) 2).getD 0 0
      < (applyRepetitionPenalty [-1] (fun _ => 0) 2).getD 0 0 :=
  (applyRepetitionPenalty_pushes_down [-1] (fun _ => 1) (fun _ => 0) 2 0
    (by norm_num) (by simp) (by simp) rfl).1

/-! ## Claim C5 -/

/-- Strict version of `entryLE`: value strictly larger, or equal value and
strictly smaller original index.  Pairwise `entryLT` on the returned entries
expresses the deterministic tie-break by original relative order. -/
def entryLT (a b : ℕ × ℚ) : Prop := b.2 < a.2 ∨ (a.2 = b.2 ∧ a.1 < b.1)

theorem sorted_entries_topKFilter (logits : List ℚ) :
    List.Sorted entryLE (List.insertionSort entryLE logits.enum) :=
  List.sorted_insertionSort entryLE logits.enum

/-- C5: `topKFilter` returns exactly `min k (length logits)` index/value
entries, values sorted descending, every kept value at least every excluded
entry's value, and ties broken by original relative order (pairwise the
entries strictly decrease in value or keep equal value with strictly
increasing original index). -/
theorem topKFilter_spec (logits : List ℚ) (k : ℕ) :
    (topKFilter logits k).1.length = min k logits.length ∧
    (topKFilter logits k).2.length = min k logits.length ∧
    List.Sorted (fun a b : ℚ => b ≤ a) (topKFilter logits k).2 ∧
    (∀ x ∈ (topKFilter logits k).2, ∀ p ∈ logits.enum,
      p.1 ∉ (topKFilter logits k).1 → p.2 ≤ x) ∧
    List.Pairwise entryLT ((topKFilter logits k).1.zip (topKFilter logits k).2) := by
  have hperm := List.perm_insertionSort entryLE logits.enum
  have hsorted := sorted_entries_topKFilter logits
  have hlen : (List.insertionSort entryLE logits.enum).length = logits.length := by
    rw [hperm.length_eq, List.enum_length]
  have htake : List.Sorted entryLE ((List.insertionSort entryLE logits.enum).take k) :=
    List.Pairwise.sublist (List.take_sublist k _) hsorted
  refine ⟨?_, ?_, ?_, ?_, ?_⟩
  · simp [topKFilter, List.length_take, hlen]
  · simp [topKFilter, List.length_take, hlen]
  · rw [topKFilter]
    refine List.pairwise_map.mpr ?_
    exact htake.imp (fun {a b} h => by
      rcases h with h | ⟨h, _⟩
      · exact le_of_lt h
      · exact le_of_eq h.symm)
  · intro x hx p hp hnot
    simp only [topKFilter, List.mem_map] at hx
    obtain ⟨e, he, rfl⟩ := hx
    have hpsorted : p ∈ List.insertionSort entryLE logits.enum := hperm.mem_iff.mpr hp
    have hpdrop : p ∈ (List.insertionSort entryLE logits.enum).drop k := by
      rcases (List.mem_append.mp (by
        rw [List.take_append_drop]; exact hpsorted :
          p ∈ (List.insertionSort entryLE logits.enum).take k ++
            (List.insertionSort entryLE logits.enum).drop k)) with htk | hdr
      · exact absurd (by
          simp only [topKFilter, List.mem_map]
          exact ⟨p, htk, rfl⟩) hnot
      · exact hdr
    have hrel : entryLE e p := hsorted.rel_of_mem_take_of_mem_drop he hpdrop
    rcases hrel with h | ⟨h, _⟩
    · exact le_of_lt h
    · exact le_of_eq h.symm
  · have hzip : (topKFilter logits k).1.zip (topKFilter logits k).2
        = (List.insertionSort entryLE logits.enum).take k := by
      rw [topKFilter]
      simp only [List.zip_map']
      simp
    rw [hzip]
    have hnodup : ((List.insertionSort entryLE logits.enum).map Prod.fst).Nodup :=
      (hperm.map Prod.fst).nodup_iff.mpr (List.nodup_enum_map_fst logits)
    have hne : (List.insertionSort entryLE logits.enum).Pairwise
        (fun a b : ℕ × ℚ => a.1 ≠ b.1) := List.pairwise_map.mp hnodup
    have hne' : ((List.insertionSort entryLE logits.enum).take k).Pairwise
        (fun a b : ℕ × ℚ => a.1 ≠ b.1) :=
      List.Pairwise.sublist (List.take_sublist k _) hne
    exact (pairwise_and_of_pairwise htake hne').imp (fun {a b} h => by
      rcases h with ⟨hle | ⟨heq, hle⟩, hne⟩
      · exact Or.inl hle
      · exact Or.inr ⟨heq, lt_of_le_of_ne hle hne⟩)

/-- Witness for C5 at logits `[1, 3, 3, 2]`, `k = 2`: the excluded entry
`(3, 2)` is bounded by the kept value `3`, and exactly two indices are kept. -/
theorem topKFilter_spec_witness :
    (2 : ℚ) ≤ 3 ∧ (topKFilter [(1 : ℚ), 3, 3, 2] 2).1.length = min 2 4 := by
  refine ⟨(topKFilter_spec [(1 : ℚ), 3, 3, 2] 2).2.2.2.1 3 (by decide) (3, 2)
    (by decide) (by decide), ?_⟩
  have h := (topKFilter_spec [(1 : ℚ), 3, 3, 2] 2).1
  simpa using h

/-! ## Claim C6 -/

theorem sampleScan_le (r : ℚ) :
    ∀ (l : List ℚ) (cum : ℚ) (i : ℕ), sampleScan r cum i l ≤ i + l.length - 1
  | [], _, i => by simp [sampleScan]
  | e :: rest, cum, i => by
    rw [sampleScan]
    split
    · simp only [List.length_cons]
      omega
    · have h := sampleScan_le r rest (cum + e) (i + 1)
      simp only [List.length_cons]
      omega

theorem sampleScan_fallback (r : ℚ) :
    ∀ (l : List ℚ) (cum : ℚ) (i : ℕ), (∀ e ∈ l, 0 ≤ e) → cum + l.sum < r →
      sampleScan r cum i l = i + l.length - 1
  | [], _, i, _, _ => by simp [sampleScan]
  | e :: rest, cum, i, hnn, hlt => by
    rw [sampleScan]
    have hrest : (0 : ℚ) ≤ rest.sum :=
      List.sum_nonneg (fun x hx => hnn x (List.mem_cons_of_mem e hx))
    have hsum : cum + (e :: rest).sum = (cum + e) + rest.sum := by
      simp [List.sum_cons]; ring
    rw [if_neg (by rw [hsum] at hlt; exact not_le.mpr (by linarith))]
    have h := sampleScan_fallback r rest (cum + e) (i + 1)
      (fun x hx => hnn x (List.mem_cons_of_mem e hx)) (by rw [hsum] at hlt; exact hlt)
    simp only [List.length_cons]
    omega

/-- C6: for every logit vector and every value of the uniform draw `r` (in
particular every value in `[0, sum of exponentials)`), `sampleFromLogits`
returns an index strictly below the vector length; and when the cumulative sum
never reaches the draw (`r` above the total sum, exponentials nonnegative) it
falls back to the last index. -/
theorem sampleFromLogits_valid (rexp : ℚ → ℚ) (logits : List ℚ) (r : ℚ)
    (h : logits ≠ []) :
    sampleFromLogits rexp logits r < logits.length ∧
    ((∀ x, 0 ≤ rexp x) → (logits.map fun x => rexp (x - listMax logits)).sum < r →
      sampleFromLogits rexp logits r = logits.length - 1) := by
  have hlen : 0 < logits.length := List.length_pos.mpr h
  constructor
  · have hs := sampleScan_le r (logits.map fun x => rexp (x - listMax logits)) 0 0
    simp only [List.length_map] at hs
    show sampleScan r 0 0 (logits.map fun x => rexp (x - listMax logits)) < logits.length
    omega
  · intro hnn hlt
    have hs := sampleScan_fallback r (logits.map fun x => rexp (x - listMax logits)) 0 0
      (by
        intro e he
        obtain ⟨x, _, rfl⟩ := List.mem_map.mp he
        exact hnn _)
      (by simpa using hlt)
    simp only [List.length_map] at hs
    show sampleScan r 0 0 (logits.map fun x => rexp (x - listMax logits)) = logits.length - 1
    omega

/-- Witness for C6 at the one-logit vector `[0]` with draw `0` and draw `5`
(above the total exponential sum `1` for the constant exponential). -/
theorem sampleFromLogits_valid_witness :
    sampleFromLogits (fun _ => 1) [(0 : ℚ)] 0 < 1 ∧
    sampleFromLogits (fun _ => 1) [(0 : ℚ)] 5 = 0 := by
  constructor
  · have h := (sampleFromLogits_valid (fun _ => 1) [(0 : ℚ)] 0 (by simp)).1
    simpa using h
  · have h := (sampleFromLogits_valid (fun _ => 1) [(0 : ℚ)] 5 (by simp)).2
      (fun _ => by norm_num) (by norm_num [listMax])
    simpa using h

/-! ## Generation loop lemmas -/

theorem genSteps_length_le (rexp : ℚ → ℚ) (scorer : List ℕ → List ℚ) (opts : GenOptions)
    (eos : ℕ) (signal : ℕ → Bool) (rand : ℕ → ℚ) :
    ∀ (fuel : ℕ) (ids : List ℕ) (step : ℕ),
      (genSteps rexp scorer opts eos signal rand ids step fuel).length ≤ fuel := by
  intro fuel
  induction fuel with
  | zero => intro ids step; simp [genSteps]
  | succ n ih =>
    intro ids step
    rw [genSteps]
    split
    · simp
    · dsimp only
      split
      · simp
      · split
        · simp
        · simpa using Nat.succ_le_succ (ih _ _)

theorem genSteps_eos_not_mem (rexp : ℚ → ℚ) (scorer : List ℕ → List ℚ) (opts : GenOptions)
    (eos : ℕ) (signal : ℕ → Bool) (rand : ℕ → ℚ) :
    ∀ (fuel : ℕ) (ids : List ℕ) (step : ℕ),
      eos ∉ genSteps rexp scorer opts eos signal rand ids step fuel := by
  intro fuel
  induction fuel with
  | zero => intro ids step; simp [genSteps]
  | succ n ih =>
    intro ids step
    rw [genSteps]
    split
    · simp
    · dsimp only
      split
      · simp
      · split
        · simp
        · next hne =>
          simp only [List.mem_cons, not_or]
          exact ⟨fun h => hne h.symm, ih _ _⟩

theorem genSteps_signal_le (rexp : ℚ → ℚ) (scorer : List ℕ → List ℚ) (opts : GenOptions)
    (eos : ℕ) (signal : ℕ → Bool) (rand : ℕ → ℚ) :
    ∀ (fuel : ℕ) (ids : List ℕ) (step s : ℕ), step ≤ s → signal s = true →
      (genSteps rexp scorer opts eos signal rand ids step fuel).length ≤ s - step := by
  intro fuel
  induction fuel with
  | zero => intro ids step s _ _; simp [genSteps]
  | succ n ih =>
    intro ids step s hle hsig
    rw [genSteps]
    split
    · simp
    · next hsigstep =>
      have hstep : step ≠ s := by
        intro h
        rw [h] at hsigstep
        exact hsigstep (by simp [hsig])
      have hlt : step < s := lt_of_le_of_ne hle hstep
      dsimp only
      split
      · simp
      · split
        · simp
        · simp only [List.length_cons]
          refine Nat.le_trans (Nat.add_le_add_right (ih _ (step + 1) s hlt hsig) 1)
            (by omega)

/-! ## Claim C2 -/

/-- C2: the generation stream never exceeds `maxNewTokens` tokens, is empty
for `maxNewTokens = 0`, never contains the end-of-sequence id, and any step
whose top filtered post-softmax probability falls below a positive
`minConfidence` ends the stream with no token emitted at that step. -/
theorem generate_stopping (rexp : ℚ → ℚ) (scorer : List ℕ → List ℚ) (opts : GenOptions)
    (eos : ℕ) (signal : ℕ → Bool) (rand : ℕ → ℚ) (inputIds : List ℕ) :
    (generate rexp scorer opts eos signal rand inputIds).length ≤ opts.maxNewTokens ∧
    (opts.maxNewTokens = 0 → generate rexp scorer opts eos signal rand inputIds = []) ∧
    eos ∉ generate rexp scorer opts eos signal rand inputIds ∧
    (∀ (ids : List ℕ) (step fuel : ℕ), signal step = false → 0 < opts.minConfidence →
      softmaxMax rexp (topKFilter (temperatureScale
          (applyRepetitionPenalty (scorer ids) (fun i => ids.count i) opts.repetitionPenalty)
          opts.temperature) opts.topK).2 < opts.minConfidence →
      genSteps rexp scorer opts eos signal rand ids step (fuel + 1) = []) := by
  refine ⟨genSteps_length_le rexp scorer opts eos signal rand _ _ _, ?_, ?_, ?_⟩
  · intro h
    unfold generate
    rw [h]
    simp [genSteps]
  · exact genSteps_eos_not_mem rexp scorer opts eos signal rand _ _ _
  · intro ids step fuel hsig hmc hlt
    rw [genSteps]
    rw [if_neg (by simp [hsig])]
    dsimp only
    rw [if_pos ⟨hmc, hlt⟩]

/-- Witness for C2: with constant exponential `1`, two equal logits, `topK 2`
and `minConfidence 3/4 > 1/2`, the very first step stops the stream with no
token, and the stream length respects `maxNewTokens = 5`. -/
theorem generate_stopping_witness :
    genSteps (fun _ => 1) (fun _ => [0, 0]) ⟨5, 1, 2, 3 / 4, 1⟩ 0 (fun _ => false)
      (fun _ => 0) [] 0 5 = [] ∧
    (generate (fun _ => 1) (fun _ => [0, 0]) ⟨5, 1, 2, 3 / 4, 1⟩ 0 (fun _ => false)
      (fun _ => 0) []).length ≤ 5 := by
  constructor
  · exact (generate_stopping (fun _ => 1) (fun _ => [0, 0]) ⟨5, 1, 2, 3 / 4, 1⟩ 0
      (fun _ => false) (fun _ => 0) []).2.2.2 [] 0 4 rfl (by norm_num)
      (by norm_num [softmaxMax, topKFilter, listMax, applyRepetitionPenalty,
        temperatureScale, List.insertionSort, List.orderedInsert, List.enum,
        List.enumFrom, entryLE])
  · exact (generate_stopping (fun _ => 1) (fun _ => [0, 0]) ⟨5, 1, 2, 3 / 4, 1⟩ 0
      (fun _ => false) (fun _ => 0) []).1

/-! ## Claim C7 -/

/-- C7: a signal set before the run yields zero tokens; a signal set at step
`s` means no token is yielded at or after step `s`, so at most `s` tokens are
ever yielded — cancellation takes effect exactly at the step boundary. -/
theorem generate_cancellation (rexp : ℚ → ℚ) (scorer : List ℕ → List ℚ) (opts : GenOptions)
    (eos : ℕ) (signal : ℕ → Bool) (rand : ℕ → ℚ) (inputIds : List ℕ) :
    (signal 0 = true → generate rexp scorer opts eos signal rand inputIds = []) ∧
    (∀ s, signal s = true →
      (generate rexp scorer opts eos signal rand inputIds).length ≤ s) := by
  constructor
  · intro h
    have hle := genSteps_signal_le rexp scorer opts eos signal rand
      opts.maxNewTokens inputIds 0 0 (le_refl 0) h
    exact List.eq_nil_of_length_eq_zero (Nat.le_zero.mp (by simpa using hle))
  · intro s hs
    have hle := genSteps_signal_le rexp scorer opts eos signal rand
      opts.maxNewTokens inputIds 0 s (Nat.zero_le s) hs
    simpa using hle

/-- Witness for C7 with the signal already set: the run yields nothing. -/
theorem generate_cancellation_witness :
    generate (fun _ => 1) (fun _ => [0]) ⟨3, 1, 1, 0, 1⟩ 0 (fun _ => true)
      (fun _ => 0) [] = [] :=
  (generate_cancellation (fun _ => 1) (fun _ => [0]) ⟨3, 1, 1, 0, 1⟩ 0 (fun _ => true)
    (fun _ => 0) []).1 rfl

/-! ## Claim C10: mutation discipline of the sampling primitives

JS `Float32Array` references become indices into an explicit store, so the
source's allocations (`new Float32Array(...)`, `Array.from`) and in-place
writes are visible.  Each primitive below is the store-passing version of the
corresponding value-level function above, allocating and writing exactly where
the source does. -/

abbrev Heap := List (List ℚ)

def readH (h : Heap) (r : ℕ) : List ℚ := h.getD r []

def writeH (h : Heap) (r : ℕ) (v : List ℚ) : Heap := h.set r v

/-- `applyRepetitionPenalty` with the store explicit: the `penalty <= 1` path
returns the input reference untouched; otherwise `new Float32Array(logits)`
allocates a copy and the loop over the token-count entries writes the adjusted
values into that copy (ids beyond the array length are skipped by the source's
bounds check). -/
def applyRepetitionPenaltyH (h : Heap) (r : ℕ) (tokenCounts : List (ℕ × ℕ))
    (penalty : ℚ) : Heap × ℕ :=
  if penalty ≤ 1 then (h, r)
  else
    let fresh := h.length
    let h1 := h ++ [readH h r]
    let h2 := tokenCounts.foldl (fun hh idc =>
      let arr := readH hh fresh
      if idc.1 < arr.length then
        writeH hh fresh (arr.set idc.1 (penalizeVal (arr.getD idc.1 0) penalty idc.2))
      else hh) h1
    (h2, fresh)

/-- `temperatureScale` with the store explicit: the `temperature <= 0` path
returns the input reference; otherwise a fresh array of scaled values is
allocated. -/
def temperatureScaleH (h : Heap) (r : ℕ) (temperature : ℚ) : Heap × ℕ :=
  if temperature ≤ 0 then (h, r)
  else (h ++ [(readH h r).map (fun x => x / temperature)], h.length)

/-- `topKFilter` with the store explicit: `Array.from` copies the input before
sorting, so only a fresh array of the kept values is allocated; the index list
is a plain value. -/
def topKFilterH (h : Heap) (r : ℕ) (k : ℕ) : Heap × (List ℕ × ℕ) :=
  let res := topKFilter (readH h r) k
  (h ++ [res.2], (res.1, h.length))

theorem readH_append (h : Heap) (v : List ℚ) {r : ℕ} (hr : r < h.length) :
    readH (h ++ [v]) r = readH h r := by
  unfold readH
  rw [List.getD_eq_getD_get?, List.getD_eq_getD_get?, List.get?_append hr]

theorem readH_writeH_ne (h : Heap) {i r : ℕ} (v : List ℚ) (hne : r ≠ i) :
    readH (writeH h i v) r = readH h r := by
  unfold readH writeH
  rw [List.getD_eq_getD_get?, List.getD_eq_getD_get?, List.get?_set_ne v h (fun h => hne h.symm)]

theorem readH_penalty_fold (penalty : ℚ) (fresh : ℕ) {r : ℕ} (hne : r ≠ fresh) :
    ∀ (counts : List (ℕ × ℕ)) (hh : Heap),
      readH (counts.foldl (fun hh idc =>
        let arr := readH hh fresh
        if idc.1 < arr.length then
          writeH hh fresh (arr.set idc.1 (penalizeVal (arr.getD idc.1 0) penalty idc.2))
        else hh) hh) r = readH hh r
  | [], hh => rfl
  | idc :: rest, hh => by
    rw [List.foldl_cons]
    rw [readH_penalty_fold penalty fresh hne rest _]
    dsimp only
    split
    · exact readH_writeH_ne hh _ hne
    · rfl

/-- C10: none of the sampling primitives mutates the logit array passed in:
after each call the input reference still holds its original contents; the
no-op branches (`penalty <= 1`, `temperature <= 0`) return the input reference
itself, and every other result lives in a freshly allocated array. -/
theorem sampling_primitives_no_mutation (h : Heap) (r : ℕ) (tokenCounts : List (ℕ × ℕ))
    (penalty temperature : ℚ) (k : ℕ) (hr : r < h.length) :
    readH (applyRepetitionPenaltyH h r tokenCounts penalty).1 r = readH h r ∧
    readH (temperatureScaleH h r temperature).1 r = readH h r ∧
    readH (topKFilterH h r k).1 r = readH h r ∧
    (penalty ≤ 1 → applyRepetitionPenaltyH h r tokenCounts penalty = (h, r)) ∧
    (temperature ≤ 0 → temperatureScaleH h r temperature = (h, r)) ∧
    (1 < penalty → (applyRepetitionPenaltyH h r tokenCounts penalty).2 = h.length) ∧
    (0 < temperature → (temperatureScaleH h r temperature).2 = h.length) ∧
    (topKFilterH h r k).2.2 = h.length := by
  have hne : r ≠ h.length := Nat.ne_of_lt hr
  refine ⟨?_, ?_, ?_, ?_, ?_, ?_, ?_, rfl⟩
  · unfold applyRepetitionPenaltyH
    split
    · rfl
    · dsimp only
      rw [readH_penalty_fold penalty h.length hne tokenCounts _]
      exact readH_append h _ hr
  · unfold temperatureScaleH
    split
    · rfl
    · exact readH_append h _ hr
  · exact readH_append h _ hr
  · intro hp
    unfold applyRepetitionPenaltyH
    rw [if_pos hp]
  · intro ht
    unfold temperatureScaleH
    rw [if_pos ht]
  · intro hp
    unfold applyRepetitionPenaltyH
    rw [if_neg (not_le.mpr hp)]
  · intro ht
    unfold temperatureScaleH
    rw [if_neg (not_le.mpr ht)]

/-- Witness for C10 on a one-array store. -/
theorem sampling_primitives_no_mutation_witness :
    readH (applyRepetitionPenaltyH [[(1 : ℚ), -1]] 0 [(0, 2)] 2).1 0 = [(1 : ℚ), -1] ∧
    temperatureScaleH [[(1 : ℚ), -1]] 0 0 = ([[(1 : ℚ), -1]], 0) := by
  have h := sampling_primitives_no_mutation [[(1 : ℚ), -1]] 0 [(0, 2)] 2 0 1
    (by norm_num)
  exact ⟨h.1, h.2.2.2.2.1 (le_refl 0)⟩

/-! ## Claim C8: accept-one-word (acceptSuggestion and the Tab branch of
handleKey in the CLI coordinator) -/

/-- JS whitespace class membership for a code point, restricted to the common
white space characters (space, tab, LF, VT, FF, CR, NBSP); the exotic Unicode
space code points of the full class do not occur in the texts considered. -/
def isWSCp (c : ℕ) : Bool :=
  c = 0x20 || c = 0x09 || c = 0x0A || c = 0x0B || c = 0x0C || c = 0x0D || c = 0xA0

def isWSChar (c : Char) : Bool := isWSCp c.toNat

def isNLChar (c : Char) : Bool := c == '\r' || c == '\n'

/-- The match of the anchored pattern of one leading-whitespace run, one
nonempty non-whitespace run, and one trailing-whitespace run; `none` when
there is no non-whitespace character to match. -/
def acceptMatch (s : List Char) : Option (List Char) :=
  let ws1 := s.takeWhile (fun c => isWSChar c)
  let rest1 := s.dropWhile (fun c => isWSChar c)
  let word := rest1.takeWhile (fun c => !isWSChar c)
  let rest2 := rest1.dropWhile (fun c => !isWSChar c)
  if word.isEmpty then none
  else some (ws1 ++ word ++ rest2.takeWhile (fun c => isWSChar c))

/-- Replace every run of CR/LF characters by a single space: a newline
character opens a run emitting one space, its continuation characters are
dropped, anything else resets the run. -/
def collapseNewlinesGo (prevNL : Bool) : List Char → List Char
  | [] => []
  | c :: rest =>
    if isNLChar c then
      if prevNL then collapseNewlinesGo true rest
      else ' ' :: collapseNewlinesGo true rest
    else c :: collapseNewlinesGo false rest

def collapseNewlines (s : List Char) : List Char := collapseNewlinesGo false s

/-- Remove a trailing whitespace run. -/
def trimTrailingWS (s : List Char) : List Char :=
  (s.reverse.dropWhile isWSChar).reverse

/-- `acceptSuggestion()`: split off the first word (with its surrounding
whitespace) from the pending suggestion, keep the rest pending, flatten
newlines in the accepted fragment to spaces, trim its trailing whitespace, and
when a remainder is pending re-append a single separating space.  Returns the
text to append and the new pending suggestion. -/
def acceptSuggestion (sugg : List Char) : List Char × List Char :=
  if sugg.isEmpty then ([], sugg)
  else
    let rawAccepted := (acceptMatch sugg).getD sugg
    let remaining := sugg.drop rawAccepted.length
    let accepted := trimTrailingWS (collapseNewlines rawAccepted)
    if accepted.isEmpty then ([], remaining)
    else if remaining.length > 0 then (accepted ++ [' '], remaining)
    else (accepted, remaining)

/-- The Tab branch of `handleKey`: accept one word, drop the duplicated
leading space when the input already ends with a space and the accepted text
starts with one, and append to the input.  Returns the new input and the new
pending suggestion. -/
def tabAccept (input sugg : List Char) : List Char × List Char :=
  if sugg.isEmpty then (input, sugg)
  else
    let res := acceptSuggestion sugg
    let accepted :=
      if input.getLast? == some ' ' && res.1.head? == some ' ' then res.1.drop 1
      else res.1
    (input ++ accepted, res.2)

/-- C8: from pending suggestion " world peace now", accept-one-word leaves
"peace now" pending, and (when the input ends with a space, so the duplicate
leading space is collapsed) appends exactly "world " to the input. -/
theorem tabAccept_world_peace_now (input : List Char) :
    (tabAccept input " world peace now".toList).2 = "peace now".toList ∧
    (input.getLast? = some ' ' →
      (tabAccept input " world peace now".toList).1 = input ++ "world ".toList) := by
  have hsugg : " world peace now".toList.isEmpty = false := by decide
  have hres : acceptSuggestion " world peace now".toList
      = (" world ".toList, "peace now".toList) := by decide
  constructor
  · unfold tabAccept
    rw [if_neg (by simp [hsugg])]
    dsimp only
    rw [hres]
  · intro h
    unfold tabAccept
    rw [if_neg (by simp [hsugg])]
    dsimp only
    rw [hres]
    dsimp only
    rw [if_pos (by rw [h]; decide)]
    have hdrop : List.drop 1 " world ".toList = "world ".toList := by decide
    rw [hdrop]

/-- Witness for C8 at input "hello ". -/
theorem tabAccept_world_peace_now_witness :
    (tabAccept "hello ".toList " world peace now".toList).1 = "hello world ".toList ∧
    (tabAccept "hello ".toList " world peace now".toList).2 = "peace now".toList := by
  have h := tabAccept_world_peace_now "hello ".toList
  refine ⟨?_, h.1⟩
  rw [h.2 (by decide)]
  decide

/-! ## BPE merge resolution (Tokenizer.bpe, tokenizer.ts)

Byte-level symbols are lists of code points (`Sym`); merged symbols are the
concatenation of their parts, exactly as JS string concatenation of the
printable-safe characters. -/

abbrev Sym := List ℕ

/-- `getPairs(word)`: all adjacent symbol pairs in order. -/
def getPairs : List Sym → List (Sym × Sym)
  | x :: y :: rest => (x, y) :: getPairs (y :: rest)
  | _ => []

/-- One pass of the merge loop body: replace every non-overlapping
left-to-right adjacent occurrence of `(a, b)` by the concatenated symbol.
This is the source's `indexOf` scan: symbols other than `a` are copied, an `a`
followed by `b` is merged and the scan resumes after the pair, an `a` not
followed by `b` is copied. -/
def mergePass (a b : Sym) : List Sym → List Sym
  | [] => []
  | [x] => [x]
  | x :: y :: rest =>
    if x = a ∧ y = b then (a ++ b) :: mergePass a b rest
    else x :: mergePass a b (y :: rest)

/-- The scan for the adjacent pair of minimum merge rank: first-seen wins on
equal ranks (`rank < minRank` is strict in the source), pairs without a
registered rank are skipped. -/
def findMinPairGo (ranks : Sym × Sym → Option ℕ) :
    List (Sym × Sym) → Option ((Sym × Sym) × ℕ) → Option ((Sym × Sym) × ℕ)
  | [], best => best
  | p :: rest, best =>
    match ranks p with
    | none => findMinPairGo ranks rest best
    | some rk =>
      match best with
      | none => findMinPairGo ranks rest (some (p, rk))
      | some br =>
        if rk < br.2 then findMinPairGo ranks rest (some (p, rk))
        else findMinPairGo ranks rest (some br)

def findMinPair (ranks : Sym × Sym → Option ℕ) (pairs : List (Sym × Sym)) :
    Option (Sym × Sym) :=
  (findMinPairGo ranks pairs none).map Prod.fst

theorem mergePass_length_le (a b : Sym) : ∀ w : List Sym, (mergePass a b w).length ≤ w.length
  | [] => by simp [mergePass]
  | [x] => by simp [mergePass]
  | x :: y :: rest => by
    rw [mergePass]
    split
    · have h := mergePass_length_le a b rest
      simp only [List.length_cons]
      omega
    · have h := mergePass_length_le a b (y :: rest)
      simp only [List.length_cons] at h ⊢
      omega

theorem mergePass_length_lt (a b : Sym) :
    ∀ w : List Sym, (a, b) ∈ getPairs w → (mergePass a b w).length < w.length
  | [], h => by simp [getPairs] at h
  | [x], h => by simp [getPairs] at h
  | x :: y :: rest, h => by
    rw [mergePass]
    split
    · have hle := mergePass_length_le a b rest
      simp only [List.length_cons]
      omega
    · next hne =>
      have hmem : (a, b) ∈ getPairs (y :: rest) := by
        rw [getPairs] at h
        rcases List.mem_cons.mp h with heq | hmem
        · exact absurd ⟨(Prod.mk.injEq .. ▸ heq).1.symm, (Prod.mk.injEq .. ▸ heq).2.symm⟩ hne
        · exact hmem
      have hlt := mergePass_length_lt a b (y :: rest) hmem
      simp only [List.length_cons] at hlt ⊢
      omega

theorem findMinPairGo_mem (ranks : Sym × Sym → Option ℕ) :
    ∀ (pairs : List (Sym × Sym)) (best : Option ((Sym × Sym) × ℕ))
      (res : (Sym × Sym) × ℕ),
      findMinPairGo ranks pairs best = some res → res.1 ∈ pairs ∨ best = some res
  | [], best, res, h => by
    rw [findMinPairGo] at h
    exact Or.inr h
  | p :: rest, best, res, h => by
    rw [findMinPairGo] at h
    rcases hrp : ranks p with _ | rk
    · rw [hrp] at h
      rcases findMinPairGo_mem ranks rest best res h with hm | he
      · exact Or.inl (List.mem_cons_of_mem p hm)
      · exact Or.inr he
    · rw [hrp] at h
      rcases hb : best with _ | br
      · rw [hb] at h
        rcases findMinPairGo_mem ranks rest _ res h with hm | he
        · exact Or.inl (List.mem_cons_of_mem p hm)
        · exact Or.inl (by
            simp only [Option.some.injEq] at he
            rw [← he]
            exact List.mem_cons_self p rest)
      · rw [hb] at h
        dsimp only at h
        by_cases hlt : rk < br.2
        · rw [if_pos hlt] at h
          rcases findMinPairGo_mem ranks rest _ res h with hm | he
          · exact Or.inl (List.mem_cons_of_mem p hm)
          · exact Or.inl (by
              simp only [Option.some.injEq] at he
              rw [← he]
              exact List.mem_cons_self p rest)
        · rw [if_neg hlt] at h
          rcases findMinPairGo_mem ranks rest _ res h with hm | he
          · exact Or.inl (List.mem_cons_of_mem p hm)
          · exact Or.inr he

theorem findMinPair_mem {ranks : Sym × Sym → Option ℕ} {pairs : List (Sym × Sym)}
    {p : Sym × Sym} (h : findMinPair ranks pairs = some p) : p ∈ pairs := by
  unfold findMinPair at h
  obtain ⟨res, hres, rfl⟩ := Option.map_eq_some'.mp h
  rcases findMinPairGo_mem ranks pairs none res hres with hm | he
  · exact hm
  · exact absurd he (by simp)

theorem mergePass_minPair_lt {ranks : Sym × Sym → Option ℕ} {word : List Sym}
    {p : Sym × Sym} (h : findMinPair ranks (getPairs word) = some p) :
    (mergePass p.1 p.2 word).length < word.length :=
  mergePass_length_lt p.1 p.2 word (by
    have hm := findMinPair_mem h
    rwa [show (p.1, p.2) = p from rfl])

/-- The `while (true)` merge loop of `Tokenizer.bpe`: find the adjacent pair
of minimum rank (stop if none is registered), merge all its occurrences in
one pass, stop if one symbol remains, repeat.  Total because every continuing
iteration strictly shrinks the word (`mergePass_minPair_lt`). -/
def bpeLoop (ranks : Sym × Sym → Option ℕ) (word : List Sym) : List Sym :=
  match h : findMinPair ranks (getPairs word) with
  | none => word
  | some p =>
    let w := mergePass p.1 p.2 word
    if w.length = 1 then w
    else bpeLoop ranks w
termination_by word.length
decreasing_by
  exact mergePass_minPair_lt h

/-- C9: the BPE merge-resolution loop terminates: an iteration that finds a
minimum-rank adjacent pair merges at least one occurrence, strictly
decreasing the symbol-sequence length (the loop's termination measure), and
when no adjacent pair has a registered rank the loop exits with the word
unchanged. -/
theorem bpe_loop_terminates (ranks : Sym × Sym → Option ℕ) (word : List Sym) :
    (∀ p, findMinPair ranks (getPairs word) = some p →
      (mergePass p.1 p.2 word).length < word.length) ∧
    (findMinPair ranks (getPairs word) = none → bpeLoop ranks word = word) := by
  constructor
  · intro p h
    exact mergePass_minPair_lt h
  · intro h
    rw [bpeLoop]
    split
    · rfl
    · next p hp => rw [h] at hp; exact absurd hp (by simp)

/-- Witness for C9 on the word ["a", "b", "a"] with the single merge
("a", "b"): the pass shrinks the word from three symbols to two. -/
theorem bpe_loop_terminates_witness :
    (mergePass [97] [98] [[97], [98], [97]]).length < 3 := by
  have h := (bpe_loop_terminates
    (fun p => if p = ([97], [98]) then some 0 else none) [[97], [98], [97]]).1
    ([97], [98]) (by decide)
  simpa using h

/-! ## Byte-unicode codec (initByteToUnicode, tokenizer.ts)

The printable-safe bytes 33-126, 161-172 and 174-255 map to themselves; the
remaining bytes are appended in increasing order and mapped to 256, 257, ... -/

def printableBytes : List ℕ :=
  (List.range' 33 94) ++ (List.range' 161 12) ++ (List.range' 174 82)

def extraBytes : List ℕ := (List.range 256).filter (fun b => !(printableBytes.contains b))

def byteUnicodePairs : List (ℕ × ℕ) :=
  printableBytes.map (fun b => (b, b)) ++ extraBytes.enum.map (fun p => (p.2, 256 + p.1))

def byteToUnicode (b : ℕ) : ℕ :=
  ((byteUnicodePairs.find? (fun p => p.1 == b)).map Prod.snd).getD 0

def unicodeToByte (u : ℕ) : Option ℕ :=
  (byteUnicodePairs.find? (fun p => p.2 == u)).map Prod.fst

set_option maxRecDepth 10000 in
/-- The codec table is a bijection on the byte range: decoding inverts
encoding for all 256 byte values. -/
theorem codec_inverse : ∀ b ∈ List.range 256, unicodeToByte (byteToUnicode b) = some b := by
  decide

theorem codec_inverse_of_lt {b : ℕ} (hb : b < 256) :
    unicodeToByte (byteToUnicode b) = some b :=
  codec_inverse b (List.mem_range.mpr hb)

/-! ## UTF-8 (TextEncoder / TextDecoder) -/

/-- A Unicode scalar value: in range and not a surrogate. -/
def validScalar (c : ℕ) : Prop := c < 0x110000 ∧ (c < 0xD800 ∨ 0xE000 ≤ c)

instance : DecidablePred validScalar := fun c => by
  unfold validScalar; infer_instance

/-- UTF-8 encoding of one scalar value, as performed by TextEncoder. -/
def utf8EncodeChar (c : ℕ) : List ℕ :=
  if c < 0x80 then [c]
  else if c < 0x800 then [0xC0 + c / 64, 0x80 + c % 64]
  else if c < 0x10000 then [0xE0 + c / 4096, 0x80 + c / 64 % 64, 0x80 + c % 64]
  else [0xF0 + c / 262144, 0x80 + c / 4096 % 64, 0x80 + c / 64 % 64, 0x80 + c % 64]

def utf8Encode (cs : List ℕ) : List ℕ := cs.flatMap utf8EncodeChar

/-- Streaming UTF-8 decoder state machine as run by TextDecoder: the state is
`none` at a scalar boundary, or `some (exp, acc)` with `exp` continuation
bytes still expected and `acc` the partial code point.  Well-formed sequences
decode exactly; a malformed byte emits the replacement character 0xFFFD (the
model resynchronizes at the following byte, which on malformed input may skip
one lead byte relative to TextDecoder — decoding is best-effort there and the
round-trip property only concerns well-formed encodings). -/
def utf8DecodeLoop : Option (ℕ × ℕ) → List ℕ → List ℕ
  | none, [] => []
  | some _, [] => [0xFFFD]
  | none, b :: rest =>
    if b < 0x80 then b :: utf8DecodeLoop none rest
    else if b < 0xC2 then 0xFFFD :: utf8DecodeLoop none rest
    else if b < 0xE0 then utf8DecodeLoop (some (1, b - 0xC0)) rest
    else if b < 0xF0 then utf8DecodeLoop (some (2, b - 0xE0)) rest
    else if b < 0xF5 then utf8DecodeLoop (some (3, b - 0xF0)) rest
    else 0xFFFD :: utf8DecodeLoop none rest
  | some (exp, acc), b :: rest =>
    if 0x80 ≤ b ∧ b < 0xC0 then
      if exp ≤ 1 then (acc * 64 + (b - 0x80)) :: utf8DecodeLoop none rest
      else utf8DecodeLoop (some (exp - 1, acc * 64 + (b - 0x80))) rest
    else 0xFFFD :: utf8DecodeLoop none rest

def utf8Decode (bs : List ℕ) : List ℕ := utf8DecodeLoop none bs

theorem utf8EncodeChar_lt_256 {c : ℕ} (hc : c < 0x110000) :
    ∀ b ∈ utf8EncodeChar c, b < 256 := by
  intro b hb
  unfold utf8EncodeChar at hb
  split at hb
  · simp only [List.mem_singleton] at hb
    omega
  · split at hb
    · simp only [List.mem_cons, List.not_mem_nil, or_false] at hb
      rcases hb with rfl | rfl <;> omega
    · split at hb
      · simp only [List.mem_cons, List.not_mem_nil, or_false] at hb
        rcases hb with rfl | rfl | rfl <;> omega
      · simp only [List.mem_cons, List.not_mem_nil, or_false] at hb
        rcases hb with rfl | rfl | rfl | rfl <;> omega

set_option maxRecDepth 100000 in
theorem utf8Decode_encodeChar (c : ℕ) (hval : validScalar c) (rest : List ℕ) :
    utf8Decode (utf8EncodeChar c ++ rest) = c :: utf8Decode rest := by
  obtain ⟨hlt, -⟩ := hval
  unfold utf8Decode utf8EncodeChar
  by_cases h1 : c < 0x80
  · rw [if_pos h1, List.cons_append, List.nil_append, utf8DecodeLoop, if_pos h1]
  · rw [if_neg h1]
    by_cases h2 : c < 0x800
    · rw [if_pos h2, List.cons_append, List.cons_append, List.nil_append]
      rw [utf8DecodeLoop, if_neg (by omega), if_neg (by omega), if_pos (by omega)]
      rw [utf8DecodeLoop, if_pos (by constructor <;> omega), if_pos (by omega)]
      congr 1
      omega
    · rw [if_neg h2]
      by_cases h3 : c < 0x10000
      · rw [if_pos h3, List.cons_append, List.cons_append, List.cons_append, List.nil_append]
        rw [utf8DecodeLoop, if_neg (by omega), if_neg (by omega), if_neg (by omega),
          if_pos (by omega)]
        rw [utf8DecodeLoop, if_pos (by constructor <;> omega), if_neg (by omega)]
        rw [utf8DecodeLoop, if_pos (by constructor <;> omega), if_pos (by omega)]
        congr 1
        omega
      · rw [if_neg h3, List.cons_append, List.cons_append, List.cons_append,
          List.cons_append, List.nil_append]
        rw [utf8DecodeLoop, if_neg (by omega), if_neg (by omega), if_neg (by omega),
          if_neg (by omega), if_pos (by omega)]
        rw [utf8DecodeLoop, if_pos (by constructor <;> omega), if_neg (by omega)]
        rw [utf8DecodeLoop, if_pos (by constructor <;> omega), if_neg (by omega)]
        rw [utf8DecodeLoop, if_pos (by constructor <;> omega), if_pos (by omega)]
        congr 1
        omega

theorem utf8_roundtrip : ∀ cs : List ℕ, (∀ c ∈ cs, validScalar c) →
    utf8Decode (utf8Encode cs) = cs
  | [], _ => rfl
  | c :: cs, h => by
    show utf8Decode (utf8EncodeChar c ++ utf8Encode cs) = c :: cs
    rw [utf8Decode_encodeChar c (h c (List.mem_cons_self c cs)) (utf8Encode cs)]
    rw [utf8_roundtrip cs (fun x hx => h x (List.mem_cons_of_mem c hx))]

/-! ## Pre-tokenization (the word-span pattern of Tokenizer.encode)

The pattern's six alternatives are tried in order at each position, exactly as
the JS regex engine does; a position where none matches is skipped (the regex
advances one character).  The letter and digit classes are restricted to the
Basic Latin and Latin-1 ranges of the full Unicode categories; the
segmentation hypothesis of the round-trip theorem is checked concretely per
text, so this restriction only narrows which texts the hypothesis covers. -/

def isLetterCp (c : ℕ) : Bool :=
  (0x41 ≤ c && c ≤ 0x5A) || (0x61 ≤ c && c ≤ 0x7A) || c == 0xAA || c == 0xB5 ||
    c == 0xBA || (0xC0 ≤ c && c ≤ 0xD6) || (0xD8 ≤ c && c ≤ 0xF6) ||
    (0xF8 ≤ c && c ≤ 0xFF)

def isDigitCp (c : ℕ) : Bool := 0x30 ≤ c && c ≤ 0x39

def isOtherCp (c : ℕ) : Bool := !(isWSCp c) && !(isLetterCp c) && !(isDigitCp c)

/-- Alternative 1: an apostrophe followed by s, d, m, t, ll, ve or re. -/
def matchContraction : List ℕ → Option (List ℕ)
  | 0x27 :: d :: rest =>
    if d = 0x73 ∨ d = 0x64 ∨ d = 0x6D ∨ d = 0x74 then some [0x27, d]
    else
      match rest with
      | e :: _ =>
        if (d = 0x6C ∧ e = 0x6C) ∨ (d = 0x76 ∧ e = 0x65) ∨ (d = 0x72 ∧ e = 0x65) then
          some [0x27, d, e]
        else none
      | [] => none
  | _ => none

/-- Alternatives 2-4: an optional single leading space then a nonempty
greedy run of the class `p`. -/
def matchSpaceRun (p : ℕ → Bool) : List ℕ → Option (List ℕ)
  | [] => none
  | c :: rest =>
    if c = 0x20 then
      let run := rest.takeWhile p
      if run.isEmpty then none else some (c :: run)
    else
      let run := (c :: rest).takeWhile p
      if run.isEmpty then none else some run

/-- Alternative 5: a CR or LF then greedily up to three whitespace
characters. -/
def matchNewlineRun : List ℕ → Option (List ℕ)
  | c :: rest =>
    if c = 0x0D ∨ c = 0x0A then some (c :: (rest.takeWhile (fun d => isWSCp d)).take 3)
    else none
  | [] => none

/-- Alternative 6: a nonempty whitespace run anchored at the end of the
string (the greedy run must reach the end for the anchor to hold). -/
def matchTrailingWS (s : List ℕ) : Option (List ℕ) :=
  if !s.isEmpty && s.all (fun c => isWSCp c) then some s else none

/-- One attempt of the alternation at the current position. -/
def tryMatch (s : List ℕ) : Option (List ℕ) :=
  match matchContraction s with
  | some m => some m
  | none =>
    match matchSpaceRun isLetterCp s with
    | some m => some m
    | none =>
      match matchSpaceRun isDigitCp s with
      | some m => some m
      | none =>
        match matchSpaceRun isOtherCp s with
        | some m => some m
        | none =>
          match matchNewlineRun s with
          | some m => some m
          | none => matchTrailingWS s

theorem matchContraction_pos {s m : List ℕ} (h : matchContraction s = some m) :
    0 < m.length := by
  unfold matchContraction at h
  split at h
  · split at h
    · simp only [Option.some.injEq] at h
      rw [← h]
      simp
    · split at h
      · split at h
        · simp only [Option.some.injEq] at h
          rw [← h]
          simp
        · exact absurd h (by simp)
      · exact absurd h (by simp)
  · exact absurd h (by simp)

theorem matchSpaceRun_pos {p : ℕ → Bool} {s m : List ℕ} (h : matchSpaceRun p s = some m) :
    0 < m.length := by
  unfold matchSpaceRun at h
  split at h
  · exact absurd h (by simp)
  · split at h <;> dsimp only at h
    · split at h
      · exact absurd h (by simp)
      · simp only [Option.some.injEq] at h
        rw [← h]
        simp
    · split at h
      · exact absurd h (by simp)
      · next hne =>
        simp only [Option.some.injEq] at h
        rw [← h]
        rw [List.isEmpty_iff] at hne
        exact List.length_pos.mpr hne

theorem matchNewlineRun_pos {s m : List ℕ} (h : matchNewlineRun s = some m) :
    0 < m.length := by
  unfold matchNewlineRun at h
  split at h
  · split at h
    · simp only [Option.some.injEq] at h
      rw [← h]
      simp
    · exact absurd h (by simp)
  · exact absurd h (by simp)

theorem matchTrailingWS_pos {s m : List ℕ} (h : matchTrailingWS s = some m) :
    0 < m.length := by
  unfold matchTrailingWS at h
  split at h
  · next hcond =>
    simp only [Option.some.injEq] at h
    rw [← h]
    simp only [Bool.and_eq_true, Bool.not_eq_true'] at hcond
    cases s with
    | nil => simp at hcond
    | cons a t => simp
  · exact absurd h (by simp)

theorem tryMatch_pos {s m : List ℕ} (h : tryMatch s = some m) : 0 < m.length := by
  unfold tryMatch at h
  split at h
  · next heq => exact matchContraction_pos (heq.trans h)
  · split at h
    · next heq => exact matchSpaceRun_pos (heq.trans h)
    · split at h
      · next heq => exact matchSpaceRun_pos (heq.trans h)
      · split at h
        · next heq => exact matchSpaceRun_pos (heq.trans h)
        · split at h
          · next heq => exact matchNewlineRun_pos (heq.trans h)
          · exact matchTrailingWS_pos h

/-- The scan of `text.match(pattern)` with an explicit step budget: at each
position emit the first matching alternative and continue after it, or skip
one character when nothing matches there (such characters appear in no
match).  Every step consumes at least one character (`tryMatch_pos`), so a
budget of the string length is never exhausted. -/
def pretokenizeGo : ℕ → List ℕ → List (List ℕ)
  | _, [] => []
  | 0, _ => []
  | fuel + 1, c :: rest =>
    match tryMatch (c :: rest) with
    | none => pretokenizeGo fuel rest
    | some m => m :: pretokenizeGo fuel ((c :: rest).drop m.length)

def pretokenize (s : List ℕ) : List (List ℕ) := pretokenizeGo s.length s

/-! ## Tokenizer (class Tokenizer, tokenizer.ts) -/

/-- A loaded tokenizer: the vocabulary entries, the merge-rank lookup, and
the four special ids (defaulting to 0..3 in the source). -/
structure TokenizerModel where
  vocab : List (Sym × ℕ)
  ranks : Sym × Sym → Option ℕ
  pad : ℕ
  unk : ℕ
  bos : ℕ
  eos : ℕ

/-- Forward vocabulary lookup (`this.vocab.get`); keys are unique in a
well-formed vocabulary, so first match is the match. -/
def lookupSym : List (Sym × ℕ) → Sym → Option ℕ
  | [], _ => none
  | (k, v) :: rest, s => if k = s then some v else lookupSym rest s

/-- Reverse vocabulary lookup (`this.reverseVocab.get`), built from the same
entries. -/
def lookupId : List (Sym × ℕ) → ℕ → Option Sym
  | [], _ => none
  | (k, v) :: rest, i => if v = i then some k else lookupId rest i

/-- `textToBytes`: UTF-8 encode the span and map every byte through the
codec into its printable-safe symbol code point. -/
def textToBytes (w : List ℕ) : Sym := (utf8Encode w).map byteToUnicode

/-- `Tokenizer.bpe`: a token already in the vocabulary stays whole; an empty
token gives nothing; a token without adjacent pairs (single symbol) stays
whole; otherwise run the merge loop over the single-character symbols. -/
def bpe (tm : TokenizerModel) (token : Sym) : List Sym :=
  if (lookupSym tm.vocab token).isSome then [token]
  else if token.isEmpty then []
  else if (getPairs (token.map (fun c => [c]))).isEmpty then [token]
  else bpeLoop tm.ranks (token.map (fun c => [c]))

/-- `tokenizeWord`: byte-encode, run BPE, look each symbol up (unknown id on
a miss). -/
def tokenizeWord (tm : TokenizerModel) (w : List ℕ) : List ℕ :=
  (bpe tm (textToBytes w)).map (fun s => (lookupSym tm.vocab s).getD tm.unk)

/-- `Tokenizer.encodeForGeneration`: begin token then the BPE tokens of every
matched span; no end token, no padding. -/
def encodeForGeneration (tm : TokenizerModel) (text : List ℕ) : List ℕ :=
  tm.bos :: (pretokenize text).flatMap (tokenizeWord tm)

/-- The token list built by `Tokenizer.encode` before truncation/padding:
begin token, body, end token. -/
def rawTokens (tm : TokenizerModel) (text : List ℕ) : List ℕ :=
  tm.bos :: (pretokenize text).flatMap (tokenizeWord tm) ++ [tm.eos]

/-- `Tokenizer.encode`: truncate the raw tokens to `maxLength`, give every
kept position mask 1, then right-pad sequence and mask with the pad id and
0 up to `maxLength`. -/
def encode (tm : TokenizerModel) (text : List ℕ) (maxLength : ℕ) : List ℕ × List ℕ :=
  let truncated := (rawTokens tm text).take maxLength
  (truncated ++ List.replicate (maxLength - truncated.length) tm.pad,
   List.replicate truncated.length 1 ++ List.replicate (maxLength - truncated.length) 0)

/-- The body of the `decode` loop for one id: special ids are skipped, other
ids go through the reverse vocabulary (skipped silently on a miss). -/
def decTok (tm : TokenizerModel) (id : ℕ) : Option Sym :=
  if id = tm.pad ∨ id = tm.bos ∨ id = tm.eos ∨ id = tm.unk then none
  else lookupId tm.vocab id

/-- `Tokenizer.decode`: drop special ids, map the rest through the reverse
vocabulary (silently skipping unknown ids), reverse every symbol character
through the codec, and UTF-8 decode the bytes. -/
def decode (tm : TokenizerModel) (ids : List ℕ) : List ℕ :=
  utf8Decode ((ids.filterMap (decTok tm)).flatten.filterMap unicodeToByte)

/-! ## Claim C3 -/

theorem getD_replicate {α : Type} {n i : ℕ} {a d : α} (h : i < n) :
    (List.replicate n a).getD i d = a := by
  rw [List.getD_eq_getElem _ _ (by simpa using h)]
  exact List.getElem_replicate ..

/-- C3: `encode(text, L)` returns an id sequence and a mask both of length
exactly `L`; with `n = min (rawTokens length) L` kept positions, the mask is
1 exactly on the kept positions (all real/begin/end token positions) and 0 on
every appended padding position, and every padding position holds the pad id
— truncation to `L` happens before padding by construction. -/
theorem encode_padding (tm : TokenizerModel) (text : List ℕ) (L : ℕ) :
    (encode tm text L).1.length = L ∧
    (encode tm text L).2.length = L ∧
    (∀ i < L, ((encode tm text L).2.getD i 0 = 1 ↔ i < min (rawTokens tm text).length L)) ∧
    (∀ i < L, min (rawTokens tm text).length L ≤ i → (encode tm text L).1.getD i 0 = tm.pad) := by
  have hlen : ((rawTokens tm text).take L).length = min L (rawTokens tm text).length :=
    List.length_take L (rawTokens tm text)
  refine ⟨?_, ?_, ?_, ?_⟩
  · simp only [encode, List.length_append, List.length_replicate, hlen]
    omega
  · simp only [encode, List.length_append, List.length_replicate, hlen]
    omega
  · intro i hi
    simp only [encode]
    by_cases hik : i < min (rawTokens tm text).length L
    · rw [List.getD_append _ _ _ _ (by simp only [List.length_replicate, hlen]; omega)]
      rw [getD_replicate (by simp only [hlen]; omega)]
      simp [hik]
    · rw [List.getD_append_right _ _ _ _ (by simp only [List.length_replicate, hlen]; omega)]
      rw [getD_replicate (by simp only [List.length_replicate, hlen]; omega)]
      simp only [hik, iff_false]
      omega
  · intro i hi hpad
    simp only [encode]
    rw [List.getD_append_right _ _ _ _ (by simp only [hlen]; omega)]
    rw [getD_replicate (by simp only [hlen]; omega)]

/-- Witness for C3 with the empty vocabulary, the text "ab" and L = 5: mask
position 4 is a padding position with pad id 0, mask position 2 is a kept
position. -/
theorem encode_padding_witness :
    (encode ⟨[], fun _ => none, 0, 1, 2, 3⟩ [97, 98] 5).1.length = 5 ∧
    ((encode ⟨[], fun _ => none, 0, 1, 2, 3⟩ [97, 98] 5).2.getD 4 0 = 1 ↔
      (4 : ℕ) < min (rawTokens ⟨[], fun _ => none, 0, 1, 2, 3⟩ [97, 98]).length 5) := by
  constructor
  · exact (encode_padding ⟨[], fun _ => none, 0, 1, 2, 3⟩ [97, 98] 5).1
  · exact (encode_padding ⟨[], fun _ => none, 0, 1, 2, 3⟩ [97, 98] 5).2.2.1 4 (by omega)

/-! ## Claim C1 -/

theorem mergePass_join (a b : Sym) : ∀ w : List Sym, (mergePass a b w).flatten = w.flatten
  | [] => rfl
  | [x] => by simp [mergePass]
  | x :: y :: rest => by
    rw [mergePass]
    split
    · next hxy =>
      obtain ⟨hx, hy⟩ := hxy
      simp only [List.flatten_cons]
      rw [mergePass_join a b rest, hx, hy, List.append_assoc]
    · simp only [List.flatten_cons]
      rw [mergePass_join a b (y :: rest)]
      simp

theorem bpeLoop_join (ranks : Sym × Sym → Option ℕ) :
    ∀ (n : ℕ) (word : List Sym), word.length ≤ n →
      (bpeLoop ranks word).flatten = word.flatten := by
  intro n
  induction n with
  | zero =>
    intro word h
    have hnil : word = [] := List.eq_nil_of_length_eq_zero (Nat.le_zero.mp h)
    subst hnil
    rw [bpeLoop]
    split
    · rfl
    · next p heq =>
      rw [show findMinPair ranks (getPairs ([] : List Sym)) = none from rfl] at heq
      exact absurd heq (by simp)
  | succ n ih =>
    intro word h
    rw [bpeLoop]
    split
    · rfl
    · next p heq =>
      dsimp only
      split
      · exact mergePass_join p.1 p.2 word
      · have hlt := mergePass_minPair_lt heq
        rw [ih (mergePass p.1 p.2 word) (by omega)]
        exact mergePass_join p.1 p.2 word

theorem join_map_singleton : ∀ l : List ℕ, (l.map (fun c => [c])).flatten = l
  | [] => rfl
  | c :: rest => by simp [join_map_singleton rest]

/-- BPE merging only regroups the symbol characters: the concatenation of the
output symbols is the input token. -/
theorem bpe_join (tm : TokenizerModel) (token : Sym) : (bpe tm token).flatten = token := by
  unfold bpe
  split
  · simp
  · split
    · next he =>
      rw [List.isEmpty_iff] at he
      rw [he]
      rfl
    · split
      · simp
      · rw [bpeLoop_join tm.ranks (token.map (fun c => [c])).length _ (le_refl _)]
        exact join_map_singleton token

theorem lookupSym_mem : ∀ (v : List (Sym × ℕ)) (s : Sym) (id : ℕ),
    lookupSym v s = some id → (s, id) ∈ v
  | [], _, _, h => absurd h (by simp [lookupSym])
  | (k, val) :: rest, s, id, h => by
    rw [lookupSym] at h
    split at h
    · next hk =>
      simp only [Option.some.injEq] at h
      rw [← hk, ← h]
      exact List.mem_cons_self _ _
    · exact List.mem_cons_of_mem _ (lookupSym_mem rest s id h)

theorem filterMap_id_of {α : Type} (f : α → Option α) :
    ∀ l : List α, (∀ s ∈ l, f s = some s) → l.filterMap f = l
  | [], _ => rfl
  | a :: rest, h => by
    rw [List.filterMap_cons, h a (List.mem_cons_self a rest)]
    rw [filterMap_id_of f rest (fun s hs => h s (List.mem_cons_of_mem a hs))]

/-- An id issued for a vocabulary symbol decodes back to that symbol. -/
theorem decTok_of_vocab (tm : TokenizerModel)
    (hids : ∀ p ∈ tm.vocab, lookupId tm.vocab p.2 = some p.1)
    (hspec : ∀ p ∈ tm.vocab, p.2 ≠ tm.pad ∧ p.2 ≠ tm.bos ∧ p.2 ≠ tm.eos ∧ p.2 ≠ tm.unk)
    {s : Sym} {id : ℕ} (hlk : lookupSym tm.vocab s = some id) :
    decTok tm id = some s := by
  have hmem := lookupSym_mem tm.vocab s id hlk
  have hsp := hspec (s, id) hmem
  unfold decTok
  rw [if_neg (by push_neg; exact ⟨hsp.1, hsp.2.1, hsp.2.2.1, hsp.2.2.2⟩)]
  exact hids (s, id) hmem

theorem tokenizeWord_filterMap (tm : TokenizerModel)
    (hids : ∀ p ∈ tm.vocab, lookupId tm.vocab p.2 = some p.1)
    (hspec : ∀ p ∈ tm.vocab, p.2 ≠ tm.pad ∧ p.2 ≠ tm.bos ∧ p.2 ≠ tm.eos ∧ p.2 ≠ tm.unk)
    (w : List ℕ)
    (hcw : ∀ s ∈ bpe tm (textToBytes w), (lookupSym tm.vocab s).isSome) :
    (tokenizeWord tm w).filterMap (decTok tm) = bpe tm (textToBytes w) := by
  unfold tokenizeWord
  rw [List.filterMap_map]
  apply filterMap_id_of
  intro s hs
  obtain ⟨id, hid⟩ := Option.isSome_iff_exists.mp (hcw s hs)
  show decTok tm ((lookupSym tm.vocab s).getD tm.unk) = some s
  rw [hid]
  exact decTok_of_vocab tm hids hspec hid

theorem body_filterMap (tm : TokenizerModel)
    (hids : ∀ p ∈ tm.vocab, lookupId tm.vocab p.2 = some p.1)
    (hspec : ∀ p ∈ tm.vocab, p.2 ≠ tm.pad ∧ p.2 ≠ tm.bos ∧ p.2 ≠ tm.eos ∧ p.2 ≠ tm.unk) :
    ∀ words : List (List ℕ),
      (∀ w ∈ words, ∀ s ∈ bpe tm (textToBytes w), (lookupSym tm.vocab s).isSome) →
      (words.flatMap (tokenizeWord tm)).filterMap (decTok tm)
        = words.flatMap (fun w => bpe tm (textToBytes w))
  | [], _ => rfl
  | w :: ws, h => by
    rw [List.flatMap_cons, List.flatMap_cons, List.filterMap_append]
    rw [tokenizeWord_filterMap tm hids hspec w (h w (List.mem_cons_self w ws))]
    rw [body_filterMap tm hids hspec ws (fun w' hw' => h w' (List.mem_cons_of_mem w hw'))]

theorem filterMap_codec : ∀ bs : List ℕ, (∀ b ∈ bs, b < 256) →
    (bs.map byteToUnicode).filterMap unicodeToByte = bs
  | [], _ => rfl
  | b :: rest, h => by
    rw [List.map_cons, List.filterMap_cons, codec_inverse_of_lt (h b (List.mem_cons_self b rest))]
    rw [filterMap_codec rest (fun x hx => h x (List.mem_cons_of_mem b hx))]

theorem joined_syms (tm : TokenizerModel) :
    ∀ words : List (List ℕ),
      (words.flatMap (fun w => bpe tm (textToBytes w))).flatten
        = (utf8Encode words.flatten).map byteToUnicode
  | [] => rfl
  | w :: ws => by
    rw [List.flatMap_cons, List.flatten_append, List.flatten_cons]
    rw [joined_syms tm ws, bpe_join tm (textToBytes w)]
    unfold textToBytes utf8Encode
    rw [List.flatMap_append, List.map_append]

/-- C1: for every text whose pre-tokenization is lossless (every character
belongs to some matched span — the representative-text condition), whose BPE
symbols are all present in the vocabulary, with a reverse vocabulary that
inverts the forward one and vocabulary ids disjoint from the special ids,
`decode (encodeForGeneration text) = text`: the begin token prefixed by
`encodeForGeneration` is dropped by `decode` and no other character is lost
or altered. -/
theorem decode_encodeForGeneration (tm : TokenizerModel) (text : List ℕ)
    (hvalid : ∀ c ∈ text, validScalar c)
    (hseg : (pretokenize text).flatten = text)
    (hcover : ∀ w ∈ pretokenize text, ∀ s ∈ bpe tm (textToBytes w),
      (lookupSym tm.vocab s).isSome)
    (hids : ∀ p ∈ tm.vocab, lookupId tm.vocab p.2 = some p.1)
    (hspec : ∀ p ∈ tm.vocab, p.2 ≠ tm.pad ∧ p.2 ≠ tm.bos ∧ p.2 ≠ tm.eos ∧ p.2 ≠ tm.unk) :
    decode tm (encodeForGeneration tm text) = text := by
  unfold decode encodeForGeneration
  rw [List.filterMap_cons_none (by simp [decTok])]
  rw [body_filterMap tm hids hspec (pretokenize text) hcover]
  rw [joined_syms tm (pretokenize text)]
  rw [hseg]
  rw [filterMap_codec (utf8Encode text) (by
    intro b hb
    obtain ⟨c, hc, hbc⟩ := List.mem_flatMap.mp hb
    exact utf8EncodeChar_lt_256 (hvalid c hc).1 b hbc)]
  exact utf8_roundtrip text hvalid

/-- Concrete tokenizer for the C1 witness: the three byte-encoded spans of
"Hello world" and "héllo" are whole vocabulary entries. -/
def tmW : TokenizerModel :=
  ⟨[([72, 101, 108, 108, 111], 4), ([288, 119, 111, 114, 108, 100], 5),
    ([104, 195, 169, 108, 108, 111], 6)], fun _ => none, 0, 1, 2, 3⟩

/-- Witness for C1 on the ASCII text "Hello world" and the two-byte UTF-8
text "héllo" (é is code point 233, bytes 195 169). -/
theorem decode_encodeForGeneration_witness :
    decode tmW (encodeForGeneration tmW [72, 101, 108, 108, 111, 32, 119, 111, 114, 108, 100])
      = [72, 101, 108, 108, 111, 32, 119, 111, 114, 108, 100] ∧
    decode tmW (encodeForGeneration tmW [104, 233, 108, 108, 111])
      = [104, 233, 108, 108, 111] := by
  constructor
  · exact decode_encodeForGeneration tmW [72, 101, 108, 108, 111, 32, 119, 111, 114, 108, 100]
      (by decide) (by decide) (by decide) (by decide) (by decide)
  · exact decode_encodeForGeneration tmW [104, 233, 108, 108, 111]
      (by decide) (by decide) (by decide) (by decide) (by decide)

end Knowmatic
